import Mathlib

/-!
Verification of `src/notebook1.ipynb` (torch_func_simple_example).

The notebook builds a bias-free linear model `logits = W · x` with a 3×4
weight matrix, applies `CrossEntropyLoss` (cross entropy of the softmax of
the logits, computed in log-sum-exp form), and compares three gradient
computations and two Hessian computations of the scalar loss with respect
to the 12 weight parameters:

* `g1` — `torch.func.grad` of `compute_loss` (the functional AD oracle);
* `g2` — `loss.backward()` accumulating into each parameter's `grad` field;
* `g3` — the analytical formula `(softmax(Wx) − onehot(y))ᵀ x`;
* `hess1` — `torch.func.hessian` of `compute_loss`;
* `hess2` — the analytical block formula `p[i]·(δ_ij − p[j])·(x xᵀ)`.

We embed the real-number semantics of these computations.  The automatic
differentiation oracle computes the exact derivative of the composed
function, so it is embedded as the mathematical derivative (`deriv`) of the
loss along each weight coordinate; the analytical formulas are transcribed
directly from the notebook cells.
-/

noncomputable section

namespace TorchFunc

open Finset Real

/-- Logits of the bias-free linear layer `nn.Linear(4, 3, bias=False)`:
`logits k = ∑ j, W k j * x j` (row `k` of `W · x`). -/
def logits (W : Fin 3 → Fin 4 → ℝ) (x : Fin 4 → ℝ) (k : Fin 3) : ℝ :=
  ∑ j, W k j * x j

/-- Sum of exponentials of the logits (the softmax normaliser). -/
def sumExp (W : Fin 3 → Fin 4 → ℝ) (x : Fin 4 → ℝ) : ℝ :=
  ∑ k, Real.exp (logits W x k)

/-- Softmax of the logits, `out.softmax` in the notebook. -/
def softmax (W : Fin 3 → Fin 4 → ℝ) (x : Fin 4 → ℝ) (i : Fin 3) : ℝ :=
  Real.exp (logits W x i) / sumExp W x

/-- One-hot encoding of the label, `F.one_hot(target, num_classes=3)`. -/
def onehot (y : Fin 3) (i : Fin 3) : ℝ := if i = y then 1 else 0

/-- `CrossEntropyLoss` on the logits: `−log softmax(logits)[y]`, computed in
the numerically stable log-sum-exp form `log (∑ exp logits) − logits y`. -/
def loss (W : Fin 3 → Fin 4 → ℝ) (x : Fin 4 → ℝ) (y : Fin 3) : ℝ :=
  Real.log (sumExp W x) - logits W x y

/-- Update a single entry `(i, j)` of the weight matrix. -/
def upd (W : Fin 3 → Fin 4 → ℝ) (i : Fin 3) (j : Fin 4) (t : ℝ) :
    Fin 3 → Fin 4 → ℝ :=
  fun i' j' => if i' = i ∧ j' = j then t else W i' j'

/-- The functional AD oracle `torch.func.grad(compute_loss, argnums=1)`
(`g1` in the notebook): the exact partial derivative of the loss with
respect to weight entry `(i, j)`. -/
def gradAD (W : Fin 3 → Fin 4 → ℝ) (x : Fin 4 → ℝ) (y : Fin 3)
    (i : Fin 3) (j : Fin 4) : ℝ :=
  deriv (fun t => loss (upd W i j t) x y) (W i j)

/-- The analytical gradient `g3` of the notebook:
`((out.softmax(dim=1) - target_onehot).T @ data)`, i.e.
`G[i,:] = (p[i] − t[i]) · x`. -/
def gradAnalytic (W : Fin 3 → Fin 4 → ℝ) (x : Fin 4 → ℝ) (y : Fin 3)
    (i : Fin 3) (j : Fin 4) : ℝ :=
  (softmax W x i - onehot y i) * x j

/-- The AD oracle `torch.func.hessian(compute_loss, argnums=1)` (`hess1`):
the exact second partial derivative of the loss, entry `((i,a),(j,b))`. -/
def hessAD (W : Fin 3 → Fin 4 → ℝ) (x : Fin 4 → ℝ) (y : Fin 3)
    (i : Fin 3) (a : Fin 4) (j : Fin 3) (b : Fin 4) : ℝ :=
  deriv (fun t => gradAD (upd W j b t) x y i a) (W j b)

/-- The analytical Hessian `hess2` of the notebook: block `(i, j)` is
`prob[i] * (int(i == j) - prob[j]) * (data.T @ data)`, whose `(a, b)` entry
is `p[i]·(δ_ij − p[j])·x[a]·x[b]`. -/
def hessAnalytic (W : Fin 3 → Fin 4 → ℝ) (x : Fin 4 → ℝ)
    (i : Fin 3) (a : Fin 4) (j : Fin 3) (b : Fin 4) : ℝ :=
  softmax W x i * ((if i = j then 1 else 0) - softmax W x j) * (x a * x b)

/-- Row index of flattened position `p` (row-major `reshape`/`flatten`). -/
def rowOf (p : Fin 12) : Fin 3 := ⟨p.val / 4, by omega⟩

/-- Column index of flattened position `p`. -/
def colOf (p : Fin 12) : Fin 4 := ⟨p.val % 4, by omega⟩

/-- Flattened position of matrix entry `(i, j)` (row-major). -/
def flatIdx (i : Fin 3) (j : Fin 4) : Fin 12 :=
  ⟨4 * i.val + j.val, by have h1 := i.isLt; have h2 := j.isLt; omega⟩

/-- Row-major flattening of a 3×4 matrix to a length-12 vector
(`.flatten()` on the gradient tensors). -/
def flatten (G : Fin 3 → Fin 4 → ℝ) (p : Fin 12) : ℝ :=
  G (rowOf p) (colOf p)

/-- Row-major flattening of the 3×4×3×4 Hessian tensor to a 12×12 matrix
(`.reshape(12, 12)`). -/
def flatten2 (H : Fin 3 → Fin 4 → Fin 3 → Fin 4 → ℝ) (p q : Fin 12) : ℝ :=
  H (rowOf p) (colOf p) (rowOf q) (colOf q)

/-- Elementwise closeness criterion of `torch.allclose`:
`|a − b| ≤ atol + rtol·|b|`. -/
def allClose (atol rtol a b : ℝ) : Prop := |a - b| ≤ atol + rtol * |b|

/-- Reverse-mode adjoint of the logits produced by `loss.backward()`:
the backward pass of `CrossEntropyLoss` emits `softmax(logits) − onehot(y)`. -/
def dLogits (W : Fin 3 → Fin 4 → ℝ) (x : Fin 4 → ℝ) (y : Fin 3)
    (i : Fin 3) : ℝ :=
  softmax W x i - onehot y i

/-- Gradient written into `linear.weight.grad` by backpropagation (`g2`):
the backward pass of the bias-free linear layer takes the outer product of
the incoming adjoint with the input `x`. -/
def gradBackprop (W : Fin 3 → Fin 4 → ℝ) (x : Fin 4 → ℝ) (y : Fin 3)
    (i : Fin 3) (j : Fin 4) : ℝ :=
  dLogits W x y i * x j

/-- Row contraction `u i = ∑ a, v[(i,a)] · x a` used in the quadratic-form
analysis of the analytical Hessian. -/
def uOf (x : Fin 4 → ℝ) (v : Fin 12 → ℝ) (i : Fin 3) : ℝ :=
  ∑ a, v (flatIdx i a) * x a

/-- The zero 3×4 weight matrix of the concrete scenario. -/
def W0 : Fin 3 → Fin 4 → ℝ := fun _ _ => 0

/-- The feature vector `[1, 2, 3, 4]` of the concrete scenario. -/
def x0 : Fin 4 → ℝ := fun j => (j.val : ℝ) + 1

/-- The loss evaluation guarded by the label-domain contract of
`CrossEntropyLoss` (the notebook's `criterion`): labels are 64-bit integers
and must name one of the 3 classes; any label outside `{0, 1, 2}` makes the
call fail at once with an invalid-input error and no result. -/
def checkedLoss (W : Fin 3 → Fin 4 → ℝ) (x : Fin 4 → ℝ) (y : ℤ) :
    Except String ℝ :=
  if h : 0 ≤ y ∧ y < 3 then
    Except.ok (loss W x ⟨y.toNat, by omega⟩)
  else
    Except.error "Target out of bounds"

/-- The mutable state touched by the `loss.backward()` code path: the
weights of the model and the `grad` buffer of `linear.weight`. -/
structure ModelState where
  weight : Fin 3 → Fin 4 → ℝ
  gradBuf : Fin 3 → Fin 4 → ℝ

/-- `model.zero_grad()`: reset the gradient buffer. -/
def zeroGrad (s : ModelState) : ModelState :=
  { s with gradBuf := fun _ _ => 0 }

/-- `loss.backward()`: accumulate the backpropagated gradient into the
`grad` buffer. -/
def backwardAccum (s : ModelState) (x : Fin 4 → ℝ) (y : Fin 3) : ModelState :=
  { s with gradBuf := fun i j => s.gradBuf i j + gradBackprop s.weight x y i j }

/-- The notebook's `g2` cell: `model.zero_grad()` followed by
`criterion(model(data), target).backward()`. -/
def backwardCell (s : ModelState) (x : Fin 4 → ℝ) (y : Fin 3) : ModelState :=
  backwardAccum (zeroGrad s) x y

/- ### Basic facts about the embedded computations -/

lemma sumExp_pos (W : Fin 3 → Fin 4 → ℝ) (x : Fin 4 → ℝ) : 0 < sumExp W x :=
  Finset.sum_pos (fun k _ => Real.exp_pos (logits W x k)) Finset.univ_nonempty

lemma sumExp_ne_zero (W : Fin 3 → Fin 4 → ℝ) (x : Fin 4 → ℝ) :
    sumExp W x ≠ 0 := ne_of_gt (sumExp_pos W x)

lemma softmax_nonneg (W : Fin 3 → Fin 4 → ℝ) (x : Fin 4 → ℝ) (i : Fin 3) :
    0 ≤ softmax W x i :=
  div_nonneg (Real.exp_pos _).le (sumExp_pos W x).le

lemma softmax_sum_eq_one (W : Fin 3 → Fin 4 → ℝ) (x : Fin 4 → ℝ) :
    ∑ i, softmax W x i = 1 := by
  unfold softmax
  rw [← Finset.sum_div]
  exact div_self (sumExp_ne_zero W x)

lemma upd_self (W : Fin 3 → Fin 4 → ℝ) (i : Fin 3) (j : Fin 4) :
    upd W i j (W i j) = W := by
  funext i' j'
  unfold upd
  split
  · rename_i h
    rw [h.1, h.2]
  · rfl

lemma logits_upd (W : Fin 3 → Fin 4 → ℝ) (x : Fin 4 → ℝ) (i : Fin 3)
    (j : Fin 4) (t : ℝ) (k : Fin 3) :
    logits (upd W i j t) x k =
      logits W x k + (if k = i then (t - W i j) * x j else 0) := by
  unfold logits upd
  by_cases hk : k = i
  · subst hk
    rw [if_pos rfl]
    have hterm : ∀ j' : Fin 4,
        (if k = k ∧ j' = j then t else W k j') * x j' =
          W k j' * x j' + (if j' = j then (t - W k j) * x j' else 0) := by
      intro j'
      by_cases hj : j' = j
      · subst hj
        simp only [and_self, if_pos rfl, if_pos trivial]
        ring
      · simp only [hj, and_false, if_false, if_neg hj, add_zero]
    rw [Finset.sum_congr rfl fun j' _ => hterm j', Finset.sum_add_distrib]
    congr 1
    rw [Finset.sum_ite_eq' Finset.univ j fun j' => (t - W k j) * x j']
    simp
  · rw [if_neg hk]
    have hterm : ∀ j' : Fin 4,
        (if k = i ∧ j' = j then t else W k j') * x j' = W k j' * x j' := by
      intro j'
      simp [hk]
    rw [Finset.sum_congr rfl fun j' _ => hterm j', add_zero]

lemma hasDerivAt_logits_upd (W : Fin 3 → Fin 4 → ℝ) (x : Fin 4 → ℝ)
    (i : Fin 3) (j : Fin 4) (k : Fin 3) :
    HasDerivAt (fun t => logits (upd W i j t) x k)
      (if k = i then x j else 0) (W i j) := by
  have hfun : (fun t => logits (upd W i j t) x k) =
      fun t => logits W x k + (if k = i then (t - W i j) * x j else 0) :=
    funext fun t => logits_upd W x i j t k
  rw [hfun]
  by_cases hk : k = i
  · simp only [if_pos hk]
    exact (((hasDerivAt_id (W i j)).sub_const (W i j)).mul_const (x j)).const_add
      (logits W x k) |>.congr_deriv (one_mul (x j))
  · simp only [if_neg hk, add_zero]
    exact hasDerivAt_const (W i j) (logits W x k)

lemma hasDerivAt_sumExp_upd (W : Fin 3 → Fin 4 → ℝ) (x : Fin 4 → ℝ)
    (i : Fin 3) (j : Fin 4) :
    HasDerivAt (fun t => sumExp (upd W i j t) x)
      (Real.exp (logits W x i) * x j) (W i j) := by
  have hsum : HasDerivAt (fun t => ∑ k, Real.exp (logits (upd W i j t) x k))
      (∑ k, Real.exp (logits W x k) * (if k = i then x j else 0)) (W i j) := by
    apply HasDerivAt.sum
    intro k _
    have h := (hasDerivAt_logits_upd W x i j k).exp
    rwa [upd_self W i j] at h
  have hval : (∑ k, Real.exp (logits W x k) * (if k = i then x j else 0)) =
      Real.exp (logits W x i) * x j := by
    rw [Finset.sum_congr rfl (fun k _ => mul_ite (k = i)
      (Real.exp (logits W x k)) (x j) 0)]
    simp only [mul_zero]
    rw [Finset.sum_ite_eq' Finset.univ i fun k => Real.exp (logits W x k) * x j]
    simp
  exact hval ▸ hsum

lemma hasDerivAt_loss_upd (W : Fin 3 → Fin 4 → ℝ) (x : Fin 4 → ℝ) (y : Fin 3)
    (i : Fin 3) (j : Fin 4) :
    HasDerivAt (fun t => loss (upd W i j t) x y)
      ((softmax W x i - onehot y i) * x j) (W i j) := by
  have hlog : HasDerivAt (fun t => Real.log (sumExp (upd W i j t) x))
      (Real.exp (logits W x i) * x j / sumExp W x) (W i j) := by
    have h := (hasDerivAt_sumExp_upd W x i j).log ?_
    · rwa [upd_self W i j] at h
    · rw [upd_self W i j]
      exact sumExp_ne_zero W x
  have hlogit := hasDerivAt_logits_upd W x i j y
  have h := hlog.sub hlogit
  have hval : Real.exp (logits W x i) * x j / sumExp W x -
      (if y = i then x j else 0) = (softmax W x i - onehot y i) * x j := by
    unfold softmax onehot
    by_cases hy : y = i
    · rw [if_pos hy, if_pos hy.symm]
      ring
    · rw [if_neg hy, if_neg fun h' => hy h'.symm]
      ring
  exact hval ▸ h

/-- The exact value of the functional AD gradient. -/
lemma gradAD_eq (W : Fin 3 → Fin 4 → ℝ) (x : Fin 4 → ℝ) (y : Fin 3)
    (i : Fin 3) (j : Fin 4) :
    gradAD W x y i j = (softmax W x i - onehot y i) * x j :=
  (hasDerivAt_loss_upd W x y i j).deriv

lemma hasDerivAt_softmax_upd (W : Fin 3 → Fin 4 → ℝ) (x : Fin 4 → ℝ)
    (i j : Fin 3) (b : Fin 4) :
    HasDerivAt (fun t => softmax (upd W j b t) x i)
      (softmax W x i * ((if i = j then 1 else 0) - softmax W x j) * x b)
      (W j b) := by
  have hnum := (hasDerivAt_logits_upd W x j b i).exp
  rw [upd_self W j b] at hnum
  have hden := hasDerivAt_sumExp_upd W x j b
  have hne : sumExp (upd W j b (W j b)) x ≠ 0 := by
    rw [upd_self W j b]
    exact sumExp_ne_zero W x
  have h := hnum.div hden hne
  rw [upd_self W j b] at h
  have hval : (Real.exp (logits W x i) * (if i = j then x b else 0) * sumExp W x -
        Real.exp (logits W x i) * (Real.exp (logits W x j) * x b)) /
        sumExp W x ^ 2 =
      softmax W x i * ((if i = j then 1 else 0) - softmax W x j) * x b := by
    have hS := sumExp_ne_zero W x
    unfold softmax
    split_ifs with hij
    · field_simp
      ring
    · field_simp
      ring
  exact hval ▸ h

/-- The exact value of the AD Hessian: it agrees with the analytical block
formula and does not depend on the label. -/
lemma hessAD_eq (W : Fin 3 → Fin 4 → ℝ) (x : Fin 4 → ℝ) (y : Fin 3)
    (i : Fin 3) (a : Fin 4) (j : Fin 3) (b : Fin 4) :
    hessAD W x y i a j b = hessAnalytic W x i a j b := by
  unfold hessAD
  have hfun : (fun t => gradAD (upd W j b t) x y i a) =
      fun t => (softmax (upd W j b t) x i - onehot y i) * x a :=
    funext fun t => gradAD_eq (upd W j b t) x y i a
  rw [hfun]
  have h := ((hasDerivAt_softmax_upd W x i j b).sub_const (onehot y i)).mul_const
    (x a)
  rw [h.deriv]
  unfold hessAnalytic
  ring

lemma rowOf_flatIdx (i : Fin 3) (a : Fin 4) : rowOf (flatIdx i a) = i := by
  have h := a.isLt
  apply Fin.ext
  simp only [rowOf, flatIdx]
  omega

lemma colOf_flatIdx (i : Fin 3) (a : Fin 4) : colOf (flatIdx i a) = a := by
  have h := a.isLt
  apply Fin.ext
  simp only [colOf, flatIdx]
  omega

lemma sum_fin12 (f : Fin 12 → ℝ) :
    ∑ p, f p = ∑ i : Fin 3, ∑ a : Fin 4, f (flatIdx i a) := by
  have hbij : Function.Bijective (fun z : Fin 3 × Fin 4 => flatIdx z.1 z.2) := by
    rw [Fintype.bijective_iff_injective_and_card]
    constructor
    · rintro ⟨i, a⟩ ⟨i', a'⟩ h
      simp only [flatIdx, Fin.mk.injEq] at h
      have ha := a.isLt
      have ha' := a'.isLt
      have hia : i.val = i'.val ∧ a.val = a'.val := by omega
      exact Prod.ext (Fin.ext hia.1) (Fin.ext hia.2)
    · simp
  rw [← Fintype.sum_bijective _ hbij (fun z => f (flatIdx z.1 z.2)) f
    (fun z => rfl)]
  exact Fintype.sum_prod_type _

lemma logits_W0 (k : Fin 3) : logits W0 x0 k = 0 := by
  unfold logits W0
  simp

lemma softmax_W0 (i : Fin 3) : softmax W0 x0 i = 1 / 3 := by
  unfold softmax sumExp
  simp only [logits_W0, Real.exp_zero]
  norm_num

lemma variance_nonneg (P u : Fin 3 → ℝ) (hnn : ∀ i, 0 ≤ P i)
    (hsum : ∑ i, P i = 1) :
    (∑ i, P i * u i) * (∑ i, P i * u i) ≤ ∑ i, P i * (u i * u i) := by
  have e1 : (∑ i, P i * u i) =
      ∑ i, Real.sqrt (P i) * (Real.sqrt (P i) * u i) := by
    refine Finset.sum_congr rfl fun i _ => ?_
    rw [← mul_assoc, Real.mul_self_sqrt (hnn i)]
  have e2 : (∑ i, Real.sqrt (P i) ^ 2) = 1 := by
    rw [Finset.sum_congr rfl fun i _ => Real.sq_sqrt (hnn i)]
    exact hsum
  have e3 : (∑ i, (Real.sqrt (P i) * u i) ^ 2) = ∑ i, P i * (u i * u i) := by
    refine Finset.sum_congr rfl fun i _ => ?_
    rw [mul_pow, Real.sq_sqrt (hnn i)]
    ring
  calc (∑ i, P i * u i) * (∑ i, P i * u i)
      = (∑ i, Real.sqrt (P i) * (Real.sqrt (P i) * u i)) ^ 2 := by
        rw [← e1, sq]
    _ ≤ (∑ i, Real.sqrt (P i) ^ 2) * ∑ i, (Real.sqrt (P i) * u i) ^ 2 :=
        Finset.sum_mul_sq_le_sq_mul_sq Finset.univ _ _
    _ = ∑ i, P i * (u i * u i) := by
        rw [e2, e3, one_mul]

lemma quad_form_eq (W : Fin 3 → Fin 4 → ℝ) (x : Fin 4 → ℝ) (v : Fin 12 → ℝ) :
    ∑ p, ∑ q, v p * flatten2 (hessAnalytic W x) p q * v q
      = (∑ i, softmax W x i * (uOf x v i * uOf x v i))
        - (∑ i, softmax W x i * uOf x v i) * (∑ i, softmax W x i * uOf x v i)
    := by
  have key : ∀ (c : ℝ) (i j : Fin 3),
      (∑ a, ∑ b, v (flatIdx i a) * (c * (x a * x b)) * v (flatIdx j b))
        = c * (uOf x v i * uOf x v j) := by
    intro c i j
    calc (∑ a, ∑ b, v (flatIdx i a) * (c * (x a * x b)) * v (flatIdx j b))
        = ∑ a, ∑ b, c * ((v (flatIdx i a) * x a) * (v (flatIdx j b) * x b)) :=
          Finset.sum_congr rfl fun a _ => Finset.sum_congr rfl fun b _ => by
            ring
      _ = c * ∑ a, ∑ b, (v (flatIdx i a) * x a) * (v (flatIdx j b) * x b) := by
          rw [Finset.mul_sum]
          exact Finset.sum_congr rfl fun a _ => by rw [Finset.mul_sum]
      _ = c * ((∑ a, v (flatIdx i a) * x a) * ∑ b, v (flatIdx j b) * x b) := by
          rw [Finset.sum_mul_sum]
      _ = c * (uOf x v i * uOf x v j) := rfl
  calc ∑ p, ∑ q, v p * flatten2 (hessAnalytic W x) p q * v q
      = ∑ i, ∑ a, ∑ q,
          v (flatIdx i a) * flatten2 (hessAnalytic W x) (flatIdx i a) q * v q :=
        sum_fin12 _
    _ = ∑ i, ∑ a, ∑ j, ∑ b,
          v (flatIdx i a) *
            (softmax W x i * ((if i = j then 1 else 0) - softmax W x j) *
              (x a * x b)) *
            v (flatIdx j b) := by
        refine Finset.sum_congr rfl fun i _ => Finset.sum_congr rfl fun a _ => ?_
        rw [sum_fin12
          (fun q => v (flatIdx i a) * flatten2 (hessAnalytic W x) (flatIdx i a) q * v q)]
        refine Finset.sum_congr rfl fun j _ => Finset.sum_congr rfl fun b _ => ?_
        simp only [flatten2, hessAnalytic, rowOf_flatIdx, colOf_flatIdx]
    _ = ∑ i, ∑ j,
          softmax W x i * ((if i = j then 1 else 0) - softmax W x j) *
            (uOf x v i * uOf x v j) := by
        refine Finset.sum_congr rfl fun i _ => ?_
        rw [Finset.sum_comm]
        exact Finset.sum_congr rfl fun j _ =>
          key (softmax W x i * ((if i = j then 1 else 0) - softmax W x j)) i j
    _ = (∑ i, ∑ j, (if i = j then softmax W x i * (uOf x v i * uOf x v j) else 0))
        - ∑ i, ∑ j, softmax W x i * softmax W x j * (uOf x v i * uOf x v j) := by
        rw [← Finset.sum_sub_distrib]
        refine Finset.sum_congr rfl fun i _ => ?_
        rw [← Finset.sum_sub_distrib]
        refine Finset.sum_congr rfl fun j _ => ?_
        split_ifs with h
        · ring
        · ring
    _ = (∑ i, softmax W x i * (uOf x v i * uOf x v i))
        - (∑ i, softmax W x i * uOf x v i) * (∑ i, softmax W x i * uOf x v i)
        := by
        congr 1
        · refine Finset.sum_congr rfl fun i _ => ?_
          rw [Finset.sum_ite_eq Finset.univ i
            (fun j => softmax W x i * (uOf x v i * uOf x v j))]
          simp
        · rw [Finset.sum_mul_sum]
          exact Finset.sum_congr rfl fun i _ =>
            Finset.sum_congr rfl fun j _ => by ring

lemma gradAnalytic_W0 (i : Fin 3) (j : Fin 4) :
    gradAnalytic W0 x0 0 i j = (1 / 3 - if i = 0 then 1 else 0) * x0 j := by
  unfold gradAnalytic onehot
  rw [softmax_W0]

lemma gradAnalytic_W0_row0 (j : Fin 4) :
    gradAnalytic W0 x0 0 0 j = -(2 / 3) * x0 j := by
  rw [gradAnalytic_W0, if_pos rfl]
  ring

lemma gradAnalytic_W0_row1 (j : Fin 4) :
    gradAnalytic W0 x0 0 1 j = (1 / 3) * x0 j := by
  rw [gradAnalytic_W0, if_neg (by decide)]
  ring

lemma gradAnalytic_W0_row2 (j : Fin 4) :
    gradAnalytic W0 x0 0 2 j = (1 / 3) * x0 j := by
  rw [gradAnalytic_W0, if_neg (by decide)]
  ring

lemma x0_eval_0 : x0 0 = 1 := by
  unfold x0
  rw [show ((0 : Fin 4)).val = 0 from rfl]
  norm_num

lemma x0_eval_1 : x0 1 = 2 := by
  unfold x0
  rw [show ((1 : Fin 4)).val = 1 from rfl]
  norm_num

lemma x0_eval_2 : x0 2 = 3 := by
  unfold x0
  rw [show ((2 : Fin 4)).val = 2 from rfl]
  norm_num

lemma x0_eval_3 : x0 3 = 4 := by
  unfold x0
  rw [show ((3 : Fin 4)).val = 3 from rfl]
  norm_num

lemma hess_block_row_sum (W : Fin 3 → Fin 4 → ℝ) (x : Fin 4 → ℝ)
    (i : Fin 3) (a b : Fin 4) :
    ∑ j, hessAnalytic W x i a j b = 0 := by
  unfold hessAnalytic
  have hterm : ∀ j : Fin 3,
      softmax W x i * ((if i = j then 1 else 0) - softmax W x j) * (x a * x b)
        = softmax W x i * (x a * x b) *
            ((if i = j then 1 else 0) - softmax W x j) := fun j => by ring
  rw [Finset.sum_congr rfl fun j _ => hterm j, ← Finset.mul_sum]
  have hsum : ∑ j : Fin 3, ((if i = j then 1 else 0) - softmax W x j) = 0 := by
    rw [Finset.sum_sub_distrib, softmax_sum_eq_one]
    rw [Finset.sum_ite_eq Finset.univ i fun _ => (1 : ℝ)]
    simp
  rw [hsum, mul_zero]

/- ### The claims -/

/-- C1: for every weight matrix `W`, feature vector `x` and label
`y ∈ {0,1,2}`, the gradient of the cross-entropy-after-softmax loss computed
by automatic differentiation equals, elementwise within
`|a − b| ≤ atol + rtol·|b|` with `atol = 1e-8` and `rtol = 1e-5`, the
analytical gradient whose class-`i` row is `(p[i] − t[i])·x`, flattened
row-major to a length-12 vector.  (The two sides are in fact exactly
equal.) -/
theorem grad_ad_matches_analytic (W : Fin 3 → Fin 4 → ℝ) (x : Fin 4 → ℝ)
    (y : Fin 3) (p : Fin 12) :
    allClose 1e-8 1e-5 (flatten (gradAD W x y) p)
      (flatten (gradAnalytic W x y) p) := by
  unfold allClose flatten
  rw [gradAD_eq]
  simp only [gradAnalytic]
  rw [sub_self, abs_zero]
  positivity

/-- C2: for every `W` and `x`, and independently of the label `y`, the
12×12 Hessian of the loss computed by automatic differentiation agrees
elementwise within the same tolerance (`atol = 1e-8`, `rtol = 1e-5`) with
the analytical block Hessian whose 4×4 block `(i, j)` is
`p[i]·(δ_ij − p[j])·(x xᵀ)`.  (The two sides are in fact exactly equal, and
the AD Hessian takes the same value at every label.) -/
theorem hess_ad_matches_analytic (W : Fin 3 → Fin 4 → ℝ) (x : Fin 4 → ℝ)
    (y : Fin 3) (p q : Fin 12) :
    allClose 1e-8 1e-5 (flatten2 (hessAD W x y) p q)
      (flatten2 (hessAnalytic W x) p q) ∧
    ∀ y' : Fin 3, flatten2 (hessAD W x y) p q = flatten2 (hessAD W x y') p q
    := by
  constructor
  · unfold allClose flatten2
    rw [hessAD_eq]
    rw [sub_self, abs_zero]
    positivity
  · intro y'
    unfold flatten2
    rw [hessAD_eq, hessAD_eq]

/-- C3: for every `W`, `x` and valid label `y`, the length-12 gradient
obtained by backpropagation-style accumulation (`loss.backward()` writing
`softmax − onehot` backwards through the linear layer) and the gradient
obtained from the functional automatic-differentiation oracle are the same
vector: both code paths compute the identical mathematical quantity. -/
theorem backprop_matches_functional_grad (W : Fin 3 → Fin 4 → ℝ)
    (x : Fin 4 → ℝ) (y : Fin 3) (p : Fin 12) :
    flatten (gradBackprop W x y) p = flatten (gradAD W x y) p := by
  unfold flatten gradBackprop dLogits
  rw [gradAD_eq]

/-- C4: for every `W` and `x`, the analytical 12×12 Hessian assembled from
the blocks `p[i]·(δ_ij − p[j])·(x xᵀ)` is symmetric, exactly. -/
theorem hess_analytic_symmetric (W : Fin 3 → Fin 4 → ℝ) (x : Fin 4 → ℝ)
    (p q : Fin 12) :
    flatten2 (hessAnalytic W x) p q = flatten2 (hessAnalytic W x) q p := by
  unfold flatten2 hessAnalytic
  rcases eq_or_ne (rowOf p) (rowOf q) with h | h
  · rw [h, if_pos rfl]
    ring
  · rw [if_neg h, if_neg (Ne.symm h)]
    ring

/-- C5: for every `W` and `x`, the analytical 12×12 Hessian is positive
semi-definite: `vᵀ·H·v ≥ 0` for every vector `v` of length 12. -/
theorem hess_analytic_psd (W : Fin 3 → Fin 4 → ℝ) (x : Fin 4 → ℝ)
    (v : Fin 12 → ℝ) :
    0 ≤ ∑ p, ∑ q, v p * flatten2 (hessAnalytic W x) p q * v q := by
  rw [quad_form_eq, sub_nonneg]
  exact variance_nonneg (softmax W x) (uOf x v) (softmax_nonneg W x)
    (softmax_sum_eq_one W x)

/-- C6: when `W` is the 3×4 zero matrix, `x = [1,2,3,4]` and `y = 0`, the
softmax probabilities are `p = [1/3, 1/3, 1/3]`; the gradient's class-0
block equals `(1/3 − 1)·x = [−0.667, −1.333, −2.0, −2.667]` within
`±1e-3`, and the class-1 and class-2 blocks each equal
`(1/3)·x = [0.333, 0.667, 1.0, 1.333]` within the same `±1e-3`. -/
theorem grad_zero_weight_scenario :
    (∀ i, softmax W0 x0 i = 1 / 3) ∧
    (|gradAnalytic W0 x0 0 0 0 - (-0.667)| ≤ 1e-3 ∧
     |gradAnalytic W0 x0 0 0 1 - (-1.333)| ≤ 1e-3 ∧
     |gradAnalytic W0 x0 0 0 2 - (-2.0)| ≤ 1e-3 ∧
     |gradAnalytic W0 x0 0 0 3 - (-2.667)| ≤ 1e-3) ∧
    (|gradAnalytic W0 x0 0 1 0 - 0.333| ≤ 1e-3 ∧
     |gradAnalytic W0 x0 0 1 1 - 0.667| ≤ 1e-3 ∧
     |gradAnalytic W0 x0 0 1 2 - 1.0| ≤ 1e-3 ∧
     |gradAnalytic W0 x0 0 1 3 - 1.333| ≤ 1e-3) ∧
    (|gradAnalytic W0 x0 0 2 0 - 0.333| ≤ 1e-3 ∧
     |gradAnalytic W0 x0 0 2 1 - 0.667| ≤ 1e-3 ∧
     |gradAnalytic W0 x0 0 2 2 - 1.0| ≤ 1e-3 ∧
     |gradAnalytic W0 x0 0 2 3 - 1.333| ≤ 1e-3) := by
  refine ⟨softmax_W0, ⟨?_, ?_, ?_, ?_⟩, ⟨?_, ?_, ?_, ?_⟩, ⟨?_, ?_, ?_, ?_⟩⟩
  · rw [gradAnalytic_W0_row0, x0_eval_0, abs_le]
    constructor <;> norm_num
  · rw [gradAnalytic_W0_row0, x0_eval_1, abs_le]
    constructor <;> norm_num
  · rw [gradAnalytic_W0_row0, x0_eval_2, abs_le]
    constructor <;> norm_num
  · rw [gradAnalytic_W0_row0, x0_eval_3, abs_le]
    constructor <;> norm_num
  · rw [gradAnalytic_W0_row1, x0_eval_0, abs_le]
    constructor <;> norm_num
  · rw [gradAnalytic_W0_row1, x0_eval_1, abs_le]
    constructor <;> norm_num
  · rw [gradAnalytic_W0_row1, x0_eval_2, abs_le]
    constructor <;> norm_num
  · rw [gradAnalytic_W0_row1, x0_eval_3, abs_le]
    constructor <;> norm_num
  · rw [gradAnalytic_W0_row2, x0_eval_0, abs_le]
    constructor <;> norm_num
  · rw [gradAnalytic_W0_row2, x0_eval_1, abs_le]
    constructor <;> norm_num
  · rw [gradAnalytic_W0_row2, x0_eval_2, abs_le]
    constructor <;> norm_num
  · rw [gradAnalytic_W0_row2, x0_eval_3, abs_le]
    constructor <;> norm_num

/-- C7: the guarded loss evaluation fails with an invalid-input error if
and only if the integer label lies outside `{0, 1, 2}`; the error is
produced at the point of use and propagated to the caller with no result,
and a result is produced exactly when the label is in range. -/
theorem checkedLoss_domain_error (W : Fin 3 → Fin 4 → ℝ) (x : Fin 4 → ℝ)
    (y : ℤ) :
    ((∃ e, checkedLoss W x y = Except.error e) ↔ (y < 0 ∨ 3 ≤ y)) ∧
    ((∃ r, checkedLoss W x y = Except.ok r) ↔ (0 ≤ y ∧ y < 3)) := by
  unfold checkedLoss
  split_ifs with h
  · constructor
    · constructor
      · rintro ⟨e, he⟩
        exact he.elim
      · intro hy
        omega
    · constructor
      · intro _
        exact h
      · intro _
        exact ⟨_, rfl⟩
  · constructor
    · constructor
      · intro _
        omega
      · intro _
        exact ⟨_, rfl⟩
    · constructor
      · rintro ⟨r, hr⟩
        exact hr.elim
      · intro hy
        exact absurd hy h

/-- C8: the gradient and Hessian routines are deterministic pure functions
of their inputs with no hidden state: running the backward cell twice on
identical inputs yields the same gradient output as running it once, the
output does not depend on whatever was previously in the hidden `grad`
buffer, the functional gradient oracle's output depends only on the
weights, features and label, and likewise the Hessian routine's output
depends only on the weights, features and label, unaffected by the hidden
`grad` buffer state left by a backward run. -/
theorem gradient_routines_deterministic (W : Fin 3 → Fin 4 → ℝ)
    (x : Fin 4 → ℝ) (y : Fin 3) (g g' : Fin 3 → Fin 4 → ℝ) (i : Fin 3)
    (j : Fin 4) (k : Fin 3) (b : Fin 4) :
    (backwardCell (backwardCell ⟨W, g⟩ x y) x y).gradBuf i j
        = (backwardCell ⟨W, g⟩ x y).gradBuf i j ∧
    (backwardCell ⟨W, g⟩ x y).gradBuf i j
        = (backwardCell ⟨W, g'⟩ x y).gradBuf i j ∧
    gradAD (backwardCell ⟨W, g⟩ x y).weight x y i j = gradAD W x y i j ∧
    hessAD (backwardCell ⟨W, g⟩ x y).weight x y i j k b
        = hessAD W x y i j k b :=
  ⟨rfl, rfl, rfl, rfl⟩

/-- C9: for every `W`, `x` and valid label `y`, the three length-4 class
blocks of the analytical gradient sum elementwise to the zero vector,
because the softmax probabilities and the one-hot vector each sum to 1. -/
theorem grad_class_blocks_sum_zero (W : Fin 3 → Fin 4 → ℝ) (x : Fin 4 → ℝ)
    (y : Fin 3) (j : Fin 4) :
    ∑ i, gradAnalytic W x y i j = 0 := by
  unfold gradAnalytic
  rw [← Finset.sum_mul]
  have h1 : ∑ i, (softmax W x i - onehot y i) = 0 := by
    rw [Finset.sum_sub_distrib, softmax_sum_eq_one]
    have h2 : ∑ i, onehot y i = 1 := by
      unfold onehot
      rw [Finset.sum_ite_eq' Finset.univ y fun _ => (1 : ℝ)]
      simp
    rw [h2, sub_self]
  rw [h1, zero_mul]

/-- C10: for every `W` and `x` and every fixed row-block index `i`, the
three 4×4 column blocks of the analytical Hessian sum to the zero matrix;
consequently the Hessian maps every length-12 vector of the form
`(u, u, u)` to zero, and it is singular (a nonzero vector in its kernel
exists). -/
theorem hess_blocks_sum_zero_and_singular (W : Fin 3 → Fin 4 → ℝ)
    (x : Fin 4 → ℝ) :
    (∀ (i : Fin 3) (a b : Fin 4), ∑ j, hessAnalytic W x i a j b = 0) ∧
    (∀ (u : Fin 4 → ℝ) (p : Fin 12),
      ∑ q, flatten2 (hessAnalytic W x) p q * u (colOf q) = 0) ∧
    (∃ vv : Fin 12 → ℝ, (∃ p, vv p ≠ 0) ∧
      ∀ p, ∑ q, flatten2 (hessAnalytic W x) p q * vv q = 0) := by
  have hmap : ∀ (u : Fin 4 → ℝ) (p : Fin 12),
      ∑ q, flatten2 (hessAnalytic W x) p q * u (colOf q) = 0 := by
    intro u p
    rw [sum_fin12 (fun q => flatten2 (hessAnalytic W x) p q * u (colOf q))]
    have hterm : ∀ (j : Fin 3) (b : Fin 4),
        flatten2 (hessAnalytic W x) p (flatIdx j b) * u (colOf (flatIdx j b))
          = hessAnalytic W x (rowOf p) (colOf p) j b * u b := by
      intro j b
      simp only [flatten2, rowOf_flatIdx, colOf_flatIdx]
    rw [Finset.sum_congr rfl fun j _ =>
      Finset.sum_congr rfl fun b _ => hterm j b]
    rw [Finset.sum_comm]
    refine Finset.sum_eq_zero fun b _ => ?_
    rw [← Finset.sum_mul, hess_block_row_sum W x (rowOf p) (colOf p) b,
      zero_mul]
  exact ⟨hess_block_row_sum W x, hmap,
    ⟨fun _ => 1, ⟨0, one_ne_zero⟩, fun p => hmap (fun _ => 1) p⟩⟩

end TorchFunc
